import Mathlib

set_option maxRecDepth 100000
set_option maxHeartbeats 1000000

/-!
Shallow embedding of the `dogma` library core (degenerate DNA/RNA sequence
algebra and degeneracy statistics) and proofs about it.

Conventions of the embedding:
* Python numbers (ints, floats, `decimal.Decimal`) are modelled as `ℚ`.
* Python dicts are association lists (`List (κ × α)`) in insertion order;
  `defaultdict` accumulation and pandas `groupby(...).sum()` are modelled by
  `aggregate`, which groups by key in first-occurrence order and sums values.
* Fallible constructors (Python code that raises `KeyError`, `ValueError`,
  `AssertionError`, ...) return `Except String _`; the string records the
  kind of exception raised by the source.
* Counts of proteins are `ℕ` (the source stores them as integer-valued
  `decimal.Decimal`).
-/

namespace Dogma

/-! ### Constant tables (dogma/utils.py, dogma/nbci.py) -/

/-- utils.py: `STANDARD_NUCLEOTIDES = 'ACGT'`. -/
def STANDARD_NUCLEOTIDES : List Char := ['A', 'C', 'G', 'T']

/-- utils.py: `NCBI_NUCLEOTIDES = 'ACGT'`. -/
def NCBI_NUCLEOTIDES : List Char := ['A', 'C', 'G', 'T']

/-- utils.py: `NCBI_CODONS`, the 64 standard codons in `itertools.product` order. -/
def NCBI_CODONS : List String :=
  NCBI_NUCLEOTIDES.flatMap (fun a =>
    NCBI_NUCLEOTIDES.flatMap (fun b =>
      NCBI_NUCLEOTIDES.map (fun c => String.mk [a, b, c])))

/-- utils.py: `NCBI_AMINO_ACIDS`, amino-acid strings per NCBI genetic-code id,
aligned with `NCBI_CODONS`. -/
def NCBI_AMINO_ACIDS : List (Nat × List Char) :=
  [(1,  "KNKNTTTTRSRSIIMIQHQHPPPPRRRRLLLLEDEDAAAAGGGGVVVV*Y*YSSSS*CWCLFLF".toList),
   (2,  "KNKNTTTT*S*SMIMIQHQHPPPPRRRRLLLLEDEDAAAAGGGGVVVV*Y*YSSSSWCWCLFLF".toList),
   (3,  "KNKNTTTTRSRSMIMIQHQHPPPPRRRRTTTTEDEDAAAAGGGGVVVV*Y*YSSSSWCWCLFLF".toList),
   (4,  "KNKNTTTTRSRSIIMIQHQHPPPPRRRRLLLLEDEDAAAAGGGGVVVV*Y*YSSSSWCWCLFLF".toList),
   (5,  "KNKNTTTTSSSSMIMIQHQHPPPPRRRRLLLLEDEDAAAAGGGGVVVV*Y*YSSSSWCWCLFLF".toList),
   (6,  "KNKNTTTTRSRSIIMIQHQHPPPPRRRRLLLLEDEDAAAAGGGGVVVVQYQYSSSS*CWCLFLF".toList),
   (9,  "NNKNTTTTSSSSIIMIQHQHPPPPRRRRLLLLEDEDAAAAGGGGVVVV*Y*YSSSSWCWCLFLF".toList),
   (10, "KNKNTTTTRSRSIIMIQHQHPPPPRRRRLLLLEDEDAAAAGGGGVVVV*Y*YSSSSCCWCLFLF".toList),
   (11, "KNKNTTTTRSRSIIMIQHQHPPPPRRRRLLLLEDEDAAAAGGGGVVVV*Y*YSSSS*CWCLFLF".toList),
   (12, "KNKNTTTTRSRSIIMIQHQHPPPPRRRRLLSLEDEDAAAAGGGGVVVV*Y*YSSSS*CWCLFLF".toList),
   (13, "KNKNTTTTGSGSMIMIQHQHPPPPRRRRLLLLEDEDAAAAGGGGVVVV*Y*YSSSSWCWCLFLF".toList),
   (14, "NNKNTTTTSSSSIIMIQHQHPPPPRRRRLLLLEDEDAAAAGGGGVVVVYY*YSSSSWCWCLFLF".toList),
   (15, "KNKNTTTTRSRSIIMIQHQHPPPPRRRRLLLLEDEDAAAAGGGGVVVV*YQYSSSS*CWCLFLF".toList),
   (16, "KNKNTTTTRSRSIIMIQHQHPPPPRRRRLLLLEDEDAAAAGGGGVVVV*YLYSSSS*CWCLFLF".toList),
   (21, "NNKNTTTTSSSSMIMIQHQHPPPPRRRRLLLLEDEDAAAAGGGGVVVV*Y*YSSSSWCWCLFLF".toList),
   (22, "KNKNTTTTRSRSIIMIQHQHPPPPRRRRLLLLEDEDAAAAGGGGVVVV*YLY*SSS*CWCLFLF".toList),
   (23, "KNKNTTTTRSRSIIMIQHQHPPPPRRRRLLLLEDEDAAAAGGGGVVVV*Y*YSSSS*CWC*FLF".toList),
   (24, "KNKNTTTTSSKSIIMIQHQHPPPPRRRRLLLLEDEDAAAAGGGGVVVV*Y*YSSSSWCWCLFLF".toList),
   (25, "KNKNTTTTRSRSIIMIQHQHPPPPRRRRLLLLEDEDAAAAGGGGVVVV*Y*YSSSSGCWCLFLF".toList),
   (26, "FFLLSSSSYY**CC*WLLLAPPPPHHQQRRRRIIIMTTTTNNKKSSRRVVVVAAAADDEEGGGG".toList)]

/-- utils.py: `DEGENERATE_NUCLEOTIDE_CODE`, IUPAC letter to member bases,
in source insertion order. -/
def DEGENERATE_NUCLEOTIDE_CODE : List (Char × List Char) :=
  [('A', ['A']),
   ('C', ['C']),
   ('G', ['G']),
   ('T', ['T']),
   ('R', ['A', 'G']),
   ('Y', ['C', 'T']),
   ('S', ['C', 'G']),
   ('W', ['A', 'T']),
   ('K', ['G', 'T']),
   ('M', ['A', 'C']),
   ('B', ['C', 'G', 'T']),
   ('D', ['A', 'G', 'T']),
   ('H', ['A', 'C', 'T']),
   ('V', ['A', 'C', 'G']),
   ('N', ['A', 'C', 'G', 'T'])]

/-- utils.py: `DEGENERATE_NUCLEOTIDES = sorted(DEGENERATE_NUCLEOTIDE_CODE.keys())`. -/
def DEGENERATE_NUCLEOTIDES : List Char :=
  (DEGENERATE_NUCLEOTIDE_CODE.map Prod.fst).mergeSort (fun a b => a ≤ b)

/-- utils.py: `DEGENERATE_NUCLEOTIDE_CODE_REVERSED`, member-base set (as a
sorted list, the join of the source string) back to the IUPAC letter. -/
def DEGENERATE_NUCLEOTIDE_CODE_REVERSED : List (List Char × Char) :=
  DEGENERATE_NUCLEOTIDE_CODE.map (fun p => (p.2, p.1))

/-- utils.py: `DEGENERATE_NUCLEOTIDE_CODE_COMPOSITION`: for each IUPAC letter,
the composition `{n: int(n in members) for n in STANDARD_NUCLEOTIDES}`. -/
def DEGENERATE_NUCLEOTIDE_CODE_COMPOSITION : List (Char × List (Char × ℚ)) :=
  DEGENERATE_NUCLEOTIDE_CODE.map (fun p =>
    (p.1, STANDARD_NUCLEOTIDES.map (fun n => (n, if p.2.contains n then (1 : ℚ) else 0))))

/-- utils.py: `NUCLEOTIDE_BASE_PAIRS = dict(zip('ACGT', 'TGCA'))`. -/
def NUCLEOTIDE_BASE_PAIRS : List (Char × Char) :=
  [('A', 'T'), ('C', 'G'), ('G', 'C'), ('T', 'A')]

/-- utils.py: `DEGENERATE_NUCLEOTIDE_PAIRS`: complement of each IUPAC letter,
computed by complementing the member set and looking the sorted result up in
the reversed code table. -/
def DEGENERATE_NUCLEOTIDE_PAIRS : List (Char × Char) :=
  DEGENERATE_NUCLEOTIDE_CODE.map (fun p =>
    (p.1,
     ((DEGENERATE_NUCLEOTIDE_CODE_REVERSED.find? (fun q =>
        q.1 = ((p.2.map (fun b =>
          ((NUCLEOTIDE_BASE_PAIRS.find? (fun r => r.1 = b)).map Prod.snd).getD 'N')).mergeSort
            (fun a b => a ≤ b)))).map Prod.snd).getD 'N'))

/-- utils.py: `DEFAULT_NUCLEOTIDE_LABEL = 'N'`. -/
def DEFAULT_NUCLEOTIDE_LABEL : Char := 'N'

/-- genetic_codes.py / utils.py: normalization applied to DNA letters:
uppercase and replace `U` by `T`. -/
def normalizeChar (c : Char) : Char :=
  let u := c.toUpper
  if u = 'U' then 'T' else u

/-- genetic_codes.py: normalization `codon.upper().replace('U', 'T')`. -/
def normalizeDNA (s : String) : String :=
  String.mk (s.toList.map normalizeChar)

/-! ### GeneticCode (dogma/genetic_codes.py) -/

/-- Python dict assignment `d[k] = v`: overwrite the entry if the key is
present, append a new entry otherwise. -/
def dictSet (l : List (String × Char)) (k : String) (v : Char) : List (String × Char) :=
  if l.any (fun p => p.1 = k) then l.map (fun p => if p.1 = k then (k, v) else p)
  else l ++ [(k, v)]

/-- GeneticCode: the codon → amino-acid mapping plus stop and error symbols.
The `name`, `code_reversed` and mutation API are not needed by any claim and
are elided. -/
structure GeneticCode where
  code : List (String × Char)
  stop_symbol : Char
  error_symbol : Char
deriving DecidableEq

/-- genetic_codes.py: `GeneticCode.__init__` with default stop and error
symbols: select the NCBI table by id (unknown id gives an empty code), then
overwrite with the normalized updated mappings. -/
def GeneticCode.ofNCBI (ncbi_id : Nat) (updated_mappings : List (String × Char)) : GeneticCode :=
  let amino_acids := ((NCBI_AMINO_ACIDS.find? (fun p => p.1 = ncbi_id)).map Prod.snd).getD []
  let codons := if (NCBI_AMINO_ACIDS.find? (fun p => p.1 = ncbi_id)).isSome then NCBI_CODONS else []
  let base := codons.zip amino_acids
  { code := updated_mappings.foldl (fun acc p => dictSet acc (normalizeDNA p.1) p.2) base,
    stop_symbol := '*',
    error_symbol := '_' }

/-- genetic_codes.py: `DEFAULT_GENETIC_CODE = GeneticCode()` (NCBI id 1). -/
def DEFAULT_GENETIC_CODE : GeneticCode := GeneticCode.ofNCBI 1 []

/-- genetic_codes.py: `SUPE = GeneticCode(updated_mappings={'TAG': 'Q'})`. -/
def SUPE : GeneticCode := GeneticCode.ofNCBI 1 [("TAG", 'Q')]

/-- genetic_codes.py: `GeneticCode.__getitem__`: normalize the codon, return
the mapped amino acid, or the error symbol if the codon is unmapped. -/
def GeneticCode.getItem (gc : GeneticCode) (codon : String) : Char :=
  let c := normalizeDNA codon
  ((gc.code.find? (fun p => p.1 = c)).map Prod.snd).getD gc.error_symbol

/-! ### Nucleotide (dogma/nucleotides.py) -/

/-- nucleotides.py: `is_valid_nucleotide_string`: every letter, uppercased and
with `U` replaced by `T`, is a standard or degenerate nucleotide letter. -/
def is_valid_nucleotide_string (s : List Char) : Bool :=
  s.all (fun c => DEGENERATE_NUCLEOTIDES.contains (normalizeChar c))

/-- nucleotides.py: `nucleotide_composition_to_letter`: sort the bases with
positive weight, look the joined string up in the reversed degenerate code
(default `N`), return it uppercase when the nonzero weights are all equal and
lowercase otherwise.  `min`/`max` of an empty sequence raises `ValueError`,
which happens exactly when no weight is positive. -/
def nucleotide_composition_to_letter (composition : List (Char × ℚ)) : Except String Char :=
  let nonzero_nucleotides :=
    ((composition.filter (fun kv => 0 < kv.2)).map Prod.fst).mergeSort (fun a b => a ≤ b)
  let nonzero_proportions := nonzero_nucleotides.map (fun n =>
    ((composition.find? (fun kv => kv.1 = n)).map Prod.snd).getD 0)
  match nonzero_proportions with
  | [] => .error "ValueError: min() arg is an empty sequence"
  | v :: vs =>
    let equimolar := vs.foldl min v = vs.foldl max v
    let letter := ((DEGENERATE_NUCLEOTIDE_CODE_REVERSED.find? (fun p =>
      p.1 = nonzero_nucleotides)).map Prod.snd).getD DEFAULT_NUCLEOTIDE_LABEL
    .ok (if equimolar then letter else letter.toLower)

/-- Input shapes accepted by `Nucleotide.__init__`: a single letter, a
base → weight mapping, or anything else (which the source silently turns into
the default fully degenerate `N`). -/
inductive NucleotideInput where
  | letter (c : Char)
  | dict (d : List (Char × ℚ))
  | other
deriving DecidableEq

/-- Nucleotide: label, composition and the attributes derived at
construction.  `sample`/`samples` (randomized) are elided. -/
structure Nucleotide where
  label : Char
  composition : List (Char × ℚ)
  members : List Char
  proportions : List ℚ
  degenerate : Bool
  equimolar : Bool
deriving DecidableEq

/-- nucleotides.py: `Nucleotide._process_input`: a single letter is
normalized and looked up in the composition table (`KeyError` when absent); a
mapping with valid-letter keys is kept as is and labelled through
`nucleotide_composition_to_letter`; any other input falls back to the default
label `N` and its composition. -/
def Nucleotide.processInput : NucleotideInput → Except String (Char × List (Char × ℚ))
  | .letter c =>
    let label := normalizeChar c
    match (DEGENERATE_NUCLEOTIDE_CODE_COMPOSITION.find? (fun p => p.1 = label)).map Prod.snd with
    | some composition => .ok (label, composition)
    | none => .error "KeyError"
  | .dict d =>
    if is_valid_nucleotide_string (d.map Prod.fst) then
      match nucleotide_composition_to_letter d with
      | .ok label => .ok (label, d)
      | .error e => .error e
    else
      .ok (DEFAULT_NUCLEOTIDE_LABEL,
           ((DEGENERATE_NUCLEOTIDE_CODE_COMPOSITION.find? (fun p =>
             p.1 = DEFAULT_NUCLEOTIDE_LABEL)).map Prod.snd).getD [])
  | .other =>
    .ok (DEFAULT_NUCLEOTIDE_LABEL,
         ((DEGENERATE_NUCLEOTIDE_CODE_COMPOSITION.find? (fun p =>
           p.1 = DEFAULT_NUCLEOTIDE_LABEL)).map Prod.snd).getD [])

/-- nucleotides.py: `Nucleotide.__init__`: process the input, then derive
`members` (sorted bases of positive weight), `proportions`, `degenerate`
(more than one member) and `equimolar` (`max == min` over positive weights;
`max` of an empty sequence raises `ValueError`). -/
def Nucleotide.ofData (data : NucleotideInput) : Except String Nucleotide := do
  let (label, composition) ← Nucleotide.processInput data
  let members :=
    ((composition.filter (fun kv => 0 < kv.2)).map Prod.fst).mergeSort (fun a b => a ≤ b)
  let proportions := members.map (fun m =>
    ((composition.find? (fun kv => kv.1 = m)).map Prod.snd).getD 0)
  let degenerate := members.length > 1
  match (composition.filter (fun kv => 0 < kv.2)).map Prod.snd with
  | [] => .error "ValueError: max() arg is an empty sequence"
  | v :: vs =>
    .ok { label := label, composition := composition, members := members,
          proportions := proportions, degenerate := degenerate,
          equimolar := decide (vs.foldl max v = vs.foldl min v) }

/-- utils.py: `rescale` on a dict: divide every value by the total and
multiply by the requested total; the source asserts the input total is
nonzero. -/
def rescale (data : List (Char × ℚ)) (total : ℚ) : Except String (List (Char × ℚ)) :=
  let input_total := (data.map Prod.snd).sum
  if input_total = 0 then .error "AssertionError: rescale input_total == 0"
  else .ok (data.map (fun kv => (kv.1, kv.2 / input_total * total)))

/-- nucleotides.py: `combine_nucleotides`: proportions default to all ones
when absent or of mismatched length; the combined composition over the four
standard bases is the proportion-weighted sum of the inputs, rescaled to
total 1, and fed back through the Nucleotide constructor. -/
def combine_nucleotides (nucleotides : List Nucleotide) (proportions? : Option (List ℚ)) :
    Except String Nucleotide := do
  let proportions :=
    match proportions? with
    | none => List.replicate nucleotides.length (1 : ℚ)
    | some ps =>
      if nucleotides.length ≠ ps.length then List.replicate nucleotides.length (1 : ℚ) else ps
  let data := STANDARD_NUCLEOTIDES.map (fun n =>
    (n, ((nucleotides.zip proportions).map (fun np =>
      ((np.1.composition.find? (fun kv => kv.1 = n)).map Prod.snd).getD 0 * np.2)).sum))
  let rescaled ← rescale data 1
  Nucleotide.ofData (.dict rescaled)

/-! ### Association-list aggregation

Python `defaultdict` accumulation and pandas `groupby(key).sum()` both
produce, for each distinct key in first-occurrence order, the sum of the
values sharing that key.  `aggregate` is that operation on association
lists; `sumMatching k` is the total value a dict lookup of `k` observes. -/

/-- Sum of the values of the entries whose key is `k`. -/
def sumMatching {κ α : Type} [DecidableEq κ] [AddCommMonoid α] (k : κ) :
    List (κ × α) → α
  | [] => 0
  | p :: rest => (if p.1 = k then p.2 else 0) + sumMatching k rest

/-- Group an association list by key, in first-occurrence order, summing the
values of each group (`defaultdict` accumulation / `groupby(...).sum()` with
`sort=False`). -/
def aggregate {κ α : Type} [DecidableEq κ] [AddCommMonoid α] :
    List (κ × α) → List (κ × α)
  | [] => []
  | p :: rest =>
    (p.1, p.2 + sumMatching p.1 rest) :: aggregate (rest.filter (fun q => ¬ q.1 = p.1))
termination_by l => l.length
decreasing_by
  simp only [List.length_cons]
  exact Nat.lt_succ_of_le (List.length_filter_le _ _)

/-! ### Codon (dogma/codons.py) -/

/-- Codon: label, standard-codon members, aligned proportions and the
composition dict.  The `degenerate`/`equimolar` flags and `sample` are not
needed by any claim and are elided. -/
structure Codon where
  label : String
  members : List String
  proportions : List ℚ
  composition : List (String × ℚ)
deriving DecidableEq

/-- codons.py: `Codon.get_members` for a base-decomposed codon: the Cartesian
product of the three bases' member letters, as codon strings. -/
def Codon.getMembers (b1 b2 b3 : Nucleotide) : List String :=
  b1.members.flatMap (fun x =>
    b2.members.flatMap (fun y =>
      b3.members.map (fun z => String.mk [x, y, z])))

/-- codons.py: `Codon.get_proportions`: for each member codon string, the
product of the three positions' composition weights for its letters. -/
def Codon.getProportions (b1 b2 b3 : Nucleotide) (members : List String) : List ℚ :=
  members.map (fun m =>
    (((m.toList.zip [b1, b2, b3]).map (fun mb =>
      ((mb.2.composition.find? (fun kv => kv.1 = mb.1)).map Prod.snd).getD 0)).foldl
      (· * ·) 1))

/-- codons.py: `Codon.__init__` branch for three Nucleotides (for example
`Codon('NNK')` after each letter becomes a Nucleotide): label is the
concatenated base labels, members and proportions come from the Cartesian
product. -/
def Codon.ofBases (b1 b2 b3 : Nucleotide) : Codon :=
  let members := Codon.getMembers b1 b2 b3
  let proportions := Codon.getProportions b1 b2 b3 members
  { label := String.mk [b1.label, b2.label, b3.label],
    members := members,
    proportions := proportions,
    composition := members.zip proportions }

/-- codons.py: `Codon('XYZ')`: each letter becomes a Nucleotide, then the
three-base constructor runs. -/
def Codon.ofString (s : String) : Except String Codon := do
  match s.toList with
  | [c1, c2, c3] =>
    let b1 ← Nucleotide.ofData (.letter c1)
    let b2 ← Nucleotide.ofData (.letter c2)
    let b3 ← Nucleotide.ofData (.letter c3)
    .ok (Codon.ofBases b1 b2 b3)
  | _ => .error "Error, Codon() parameters not valid"

/-- codons.py: `Codon.translate`: accumulate member proportions into a dict
keyed by the amino acid the genetic code assigns to each member codon
(`defaultdict` accumulation, modelled by `aggregate` over the mapped pairs).
`dtype='decimal'` only changes the Python numeric type; weights are `ℚ`
throughout this embedding. -/
def Codon.translate (gc : GeneticCode) (c : Codon) : List (Char × ℚ) :=
  aggregate ((c.members.zip c.proportions).map (fun mp => (gc.getItem mp.1, mp.2)))

/-! ### Oligonucleotide and the degeneracy engine (dogma/oligonucleotides.py) -/

/-- oligonucleotides.py: `Oligonucleotide.__init__` on a nucleotide string:
every letter becomes a Nucleotide. -/
def Oligonucleotide.basesOfString (s : String) : Except String (List Nucleotide) :=
  s.toList.mapM (fun c => Nucleotide.ofData (.letter c))

/-- Consecutive base triplets `bases[3i:3i+3]` for `i < length // 3` (the
trailing remainder is dropped, as in the source). -/
def tripletChunks {α : Type} : List α → List (α × α × α)
  | a :: b :: c :: rest => (a, b, c) :: tripletChunks rest
  | _ => []

/-- oligonucleotides.py: `Oligonucleotide.get_codons`: one Codon per base
triplet. -/
def Oligonucleotide.getCodons (bases : List Nucleotide) : List Codon :=
  (tripletChunks bases).map (fun t => Codon.ofBases t.1 t.2.1 t.2.2)

/-- oligonucleotides.py: `Oligonucleotide.get_amino_acid_profile`: the
per-position amino-acid weight dicts, one per codon, via `Codon.translate`. -/
def Oligonucleotide.aminoAcidProfile (gc : GeneticCode) (bases : List Nucleotide) :
    List (List (Char × ℚ)) :=
  (Oligonucleotide.getCodons bases).map (fun c => Codon.translate gc c)

/-- Full pipeline from a nucleotide string to the amino-acid profile. -/
def Oligonucleotide.aminoAcidProfileOfString (gc : GeneticCode) (s : String) :
    Except String (List (List (Char × ℚ))) := do
  let bases ← Oligonucleotide.basesOfString s
  .ok (Oligonucleotide.aminoAcidProfile gc bases)

/-- oligonucleotides.py: `get_amino_acid_degeneracy_profile` for one
position: `{v: list(d.values()).count(v) for v in set(d.values())}` — for
each distinct weight value, how many amino acids carry it.  Aggregating the
pairs `(weight, 1)` produces exactly that histogram (keyed in
first-occurrence rather than Python-set order, which no claim observes). -/
def degeneracyHistogram (d : List (Char × ℚ)) : List (ℚ × ℕ) :=
  aggregate (d.map (fun kv => (kv.2, 1)))

/-- oligonucleotides.py: `get_amino_acid_degeneracy_profile`: one histogram
per position of the amino-acid profile. -/
def Oligonucleotide.aminoAcidDegeneracyProfile (profile : List (List (Char × ℚ))) :
    List (List (ℚ × ℕ)) :=
  profile.map degeneracyHistogram

/-- oligonucleotides.py, `get_protein_degeneracy_table` loop body:
`df = pd.concat([df * next_df.iloc[i] for i in range(len(next_df))])` then
`df.groupby(['Degeneracy'], sort=False).sum()`: every row of the running
table is multiplied columnwise with every row of the next histogram
(degeneracy × degeneracy, count × count) and the result is re-grouped by
degeneracy. -/
def foldStep (df next_df : List (ℚ × ℕ)) : List (ℚ × ℕ) :=
  aggregate ((next_df.map (fun q => df.map (fun p => (p.1 * q.1, p.2 * q.2)))).flatten)

/-- oligonucleotides.py: `get_protein_degeneracy_table`: left-to-right fold
of the per-position degeneracy histograms by `foldStep`, starting from the
first position's histogram, finally sorted ascending by degeneracy
(`sort_values(by=['Degeneracy'])`).  An empty profile yields the empty
table. -/
def get_protein_degeneracy_table (profile : List (List (Char × ℚ))) : List (ℚ × ℕ) :=
  match Oligonucleotide.aminoAcidDegeneracyProfile profile with
  | [] => []
  | df :: dfs => (dfs.foldl foldStep df).mergeSort (fun p q => p.1 ≤ q.1)

/-- oligonucleotides.py: `get_size` / `get_degeneracy_table`:
`size_proteins = df['Proteins'].sum()`. -/
def size_proteins (t : List (ℚ × ℕ)) : ℚ :=
  (t.map (fun p => (p.2 : ℚ))).sum

/-- oligonucleotides.py: `get_degeneracy_table` / `get_size`:
`df['Oligonucleotides'] = df.Degeneracy * df.Proteins` and
`size_oligonucleotides = df['Oligonucleotides'].sum()`. -/
def size_oligonucleotides (t : List (ℚ × ℕ)) : ℚ :=
  (t.map (fun p => p.1 * (p.2 : ℚ))).sum

/-- oligonucleotides.py: `get_makowski_diversity`:
`d = Σ proteins_i * (degeneracy_i / size_oligonucleotides)**2`, result
`1 / (size_proteins * d)`. -/
def get_makowski_diversity (profile : List (List (Char × ℚ))) : ℚ :=
  let t := get_protein_degeneracy_table profile
  let S := size_oligonucleotides t
  let P := size_proteins t
  1 / (P * (t.map (fun p => (p.2 : ℚ) * (p.1 / S) ^ 2)).sum)

/-- oligonucleotides.py: `_get_alternative_makowski_diversity`:
`d = Π_positions Σ_aa (weight / position_total)**2`, result
`1 / (size_proteins * d)`. -/
def get_alternative_makowski_diversity (profile : List (List (Char × ℚ))) : ℚ :=
  let P := size_proteins (get_protein_degeneracy_table profile)
  let d := (profile.map (fun aa_dict =>
    (aa_dict.map (fun kv => (kv.2 / (aa_dict.map Prod.snd).sum) ^ 2)).sum)).prod
  1 / (P * d)

/-- oligonucleotides.py: `get_entropy`: the method prints the two table
columns and then hits a leftover debug `return 0` before the entropy loop, so
it returns the integer 0 for every input; the remainder of the body is dead
code. -/
def get_entropy (_t : List (ℚ × ℕ)) : ℚ := 0

/-- Shannon entropy of the protein distribution as specified (and as the dead
code after `return 0` in `get_entropy` computes it):
`−Σ protein_count_i * p_i * ln(p_i)` with `p_i = degeneracy_i / size_proteins`. -/
noncomputable def shannon_entropy_of_table (t : List (ℚ × ℕ)) : ℝ :=
  -((t.map (fun p => (p.2 : ℝ) * ((p.1 / size_proteins t : ℚ) : ℝ)
      * Real.log ((p.1 / size_proteins t : ℚ) : ℝ))).sum)

/-- oligonucleotides.py: `reverse_complement`: the body normalizes the input
to its label string and then ends at a `# TODO!` comment, so the function
returns `None` for every input. -/
def reverse_complement (oligo : String) : Option String :=
  let _label := oligo
  none

/-- Modelled from the spec: the source `reverse_complement` is an
unimplemented stub, so the intended operation is taken from §4.5: reverse the
position order and complement each position via the base-pairing map
(`DEGENERATE_NUCLEOTIDE_PAIRS`, built from `NUCLEOTIDE_BASE_PAIRS`). -/
def spec_reverse_complement (s : String) : String :=
  String.mk ((s.toList.map (fun c =>
    ((DEGENERATE_NUCLEOTIDE_PAIRS.find? (fun p => p.1 = c)).map Prod.snd).getD c)).reverse)

/-! ### Protein (dogma/proteins.py) and AminoAcid (dogma/amino_acids.py) -/

/-- AminoAcid: label, members and proportions.  The synonymous-codon fields
(`codons`, `codon_labels`) and `composition` are not needed by any claim and
are elided. -/
structure AminoAcid where
  label : Char
  members : List Char
  proportions : List ℚ
deriving DecidableEq

/-- amino_acids.py: `AminoAcid.__init__` branch for a single letter:
`members = [data]`, `proportions = [1]`. -/
def AminoAcid.ofLetter (c : Char) : AminoAcid :=
  { label := c, members := [c], proportions := [1] }

/-- amino_acids.py: `AminoAcid.is_degenerate` as written in the source:
`return len(self.members) > 0`. -/
def AminoAcid.is_degenerate (a : AminoAcid) : Bool :=
  a.members.length > 0

/-- proteins.py: `Protein.is_degenerate`:
`any([a.is_degenerate() for a in self.residues])`. -/
def Protein.is_degenerate (residues : List AminoAcid) : Bool :=
  residues.any (fun a => a.is_degenerate)

/-- proteins.py: `calculate_protein_degeneracy`: multiply, over
`zip(amino_acid_profile, protein)`, the profile's weight for the required
residue.  A residue absent from a position's dict raises `KeyError`
(`none`); `functools.reduce` without initializer raises on an empty sequence
(`none`). -/
def calculate_protein_degeneracy (protein : String)
    (profile : List (List (Char × ℚ))) : Option ℚ := do
  let factors ← (profile.zip protein.toList).mapM (fun da =>
    (da.1.find? (fun kv => kv.1 = da.2)).map Prod.snd)
  match factors with
  | [] => none
  | f :: fs => some (fs.foldl (· * ·) f)

/-! ### Semantic definitions used to state the claims -/

/-- The distinct protein sequences realizable by a design: one amino acid
from each position's dict, in order. -/
def proteinStrings : List (List (Char × ℚ)) → List (List Char)
  | [] => [[]]
  | pos :: rest => pos.flatMap (fun kv => (proteinStrings rest).map (fun p => kv.1 :: p))

/-- The amino-acid weight a position's dict assigns to a residue (0 when the
residue does not occur). -/
def positionWeight (pos : List (Char × ℚ)) (a : Char) : ℚ :=
  ((pos.find? (fun kv => kv.1 = a)).map Prod.snd).getD 0

/-- Degeneracy of one protein sequence within a design: the product over
positions of the weight of the protein's residue there. -/
def proteinDegeneracy (profile : List (List (Char × ℚ))) (p : List Char) : ℚ :=
  (List.zipWith positionWeight profile p).prod

/-! ### Generic association-list lemmas -/

/-- Weighted sum of an association list through an entry-wise function. -/
def pairSum {κ α M : Type} [AddCommMonoid M] (f : κ → α → M) (l : List (κ × α)) : M :=
  (l.map (fun p => f p.1 p.2)).sum

theorem pairSum_nil {κ α M : Type} [AddCommMonoid M] (f : κ → α → M) :
    pairSum f ([] : List (κ × α)) = 0 := rfl

theorem pairSum_cons {κ α M : Type} [AddCommMonoid M] (f : κ → α → M)
    (p : κ × α) (l : List (κ × α)) :
    pairSum f (p :: l) = f p.1 p.2 + pairSum f l := by
  simp [pairSum]

theorem pairSum_append {κ α M : Type} [AddCommMonoid M] (f : κ → α → M)
    (l₁ l₂ : List (κ × α)) :
    pairSum f (l₁ ++ l₂) = pairSum f l₁ + pairSum f l₂ := by
  simp [pairSum]

theorem pairSum_perm {κ α M : Type} [AddCommMonoid M] (f : κ → α → M)
    {l₁ l₂ : List (κ × α)} (h : l₁.Perm l₂) :
    pairSum f l₁ = pairSum f l₂ :=
  (h.map _).sum_eq

theorem sumMatching_cons {κ α : Type} [DecidableEq κ] [AddCommMonoid α]
    (k : κ) (p : κ × α) (l : List (κ × α)) :
    sumMatching k (p :: l) = (if p.1 = k then p.2 else 0) + sumMatching k l := rfl

/-- Splitting a weighted sum at one key: the contribution of the entries with
key `k` (merged by `sumMatching`) plus the sum over the remaining entries.
Requires `f` to be additive in the value. -/
theorem pairSum_split {κ α M : Type} [DecidableEq κ] [AddCommMonoid α] [AddCommMonoid M]
    (f : κ → α → M) (hadd : ∀ k a b, f k (a + b) = f k a + f k b)
    (hzero : ∀ k, f k 0 = 0) (k : κ) (l : List (κ × α)) :
    pairSum f l = f k (sumMatching k l) + pairSum f (l.filter (fun q => ¬ q.1 = k)) := by
  induction l with
  | nil => simp [pairSum, sumMatching, hzero]
  | cons p rest ih =>
    rw [pairSum_cons, ih, sumMatching_cons]
    by_cases h : p.1 = k
    · rw [if_pos h, hadd, List.filter_cons_of_neg (by simp [h]), h]
      abel
    · rw [if_neg h, zero_add, List.filter_cons_of_pos (by simp [h]), pairSum_cons]
      abel

theorem aggregate_nil {κ α : Type} [DecidableEq κ] [AddCommMonoid α] :
    aggregate ([] : List (κ × α)) = [] := by
  rw [aggregate]

theorem aggregate_cons {κ α : Type} [DecidableEq κ] [AddCommMonoid α]
    (p : κ × α) (rest : List (κ × α)) :
    aggregate (p :: rest)
      = (p.1, p.2 + sumMatching p.1 rest)
        :: aggregate (rest.filter (fun q => ¬ q.1 = p.1)) := by
  rw [aggregate]

/-- Aggregation (grouping by key and summing values) does not change any
weighted sum whose entry function is additive in the value. -/
theorem pairSum_aggregate {κ α M : Type} [DecidableEq κ] [AddCommMonoid α] [AddCommMonoid M]
    (f : κ → α → M) (hadd : ∀ k a b, f k (a + b) = f k a + f k b)
    (hzero : ∀ k, f k 0 = 0) (l : List (κ × α)) :
    pairSum f (aggregate l) = pairSum f l := by
  have main : ∀ (n : ℕ) (l : List (κ × α)), l.length ≤ n →
      pairSum f (aggregate l) = pairSum f l := by
    intro n
    induction n with
    | zero =>
      intro l hl
      rw [Nat.le_zero, List.length_eq_zero] at hl
      subst hl
      rw [aggregate_nil]
    | succ n ih =>
      intro l hl
      match l with
      | [] => rw [aggregate_nil]
      | p :: rest =>
        rw [aggregate_cons, pairSum_cons, hadd,
            ih (rest.filter (fun q => ¬ q.1 = p.1))
              (le_trans (List.length_filter_le _ _) (Nat.le_of_succ_le_succ hl)),
            pairSum_cons, pairSum_split f hadd hzero p.1 rest, add_assoc]
  exact main l.length l le_rfl

/-- Lookup totals (`sumMatching`) are preserved by aggregation. -/
theorem sumMatching_aggregate {κ α : Type} [DecidableEq κ] [AddCommMonoid α]
    (k : κ) (l : List (κ × α)) :
    sumMatching k (aggregate l) = sumMatching k l := by
  have hrepr : ∀ m : List (κ × α),
      sumMatching k m = pairSum (fun k' v => if k' = k then v else 0) m := by
    intro m
    induction m with
    | nil => rfl
    | cons p rest ih => rw [sumMatching_cons, pairSum_cons, ih]
  rw [hrepr, hrepr]
  exact pairSum_aggregate _ (fun k' a b => by split <;> simp) (fun k' => by split <;> simp) l

/-! ### Weighted sums over degeneracy tables -/

/-- Evaluation of a degeneracy table against a weight function:
`Σ protein_count * W(degeneracy)` over the rows. -/
def tableSum {R : Type} [CommSemiring R] (W : ℚ → R) (t : List (ℚ × ℕ)) : R :=
  pairSum (fun (k : ℚ) (c : ℕ) => (c : R) * W k) t

theorem tableSum_aggregate {R : Type} [CommSemiring R] (W : ℚ → R) (l : List (ℚ × ℕ)) :
    tableSum W (aggregate l) = tableSum W l :=
  pairSum_aggregate (fun (k : ℚ) (c : ℕ) => (c : R) * W k)
    (fun k a b => by push_cast; ring) (fun k => by simp) l

theorem tableSum_perm {R : Type} [CommSemiring R] (W : ℚ → R) {l₁ l₂ : List (ℚ × ℕ)}
    (h : l₁.Perm l₂) : tableSum W l₁ = tableSum W l₂ :=
  pairSum_perm _ h

theorem tableSum_mergeSort {R : Type} [CommSemiring R] (W : ℚ → R) (l : List (ℚ × ℕ)) :
    tableSum W (l.mergeSort (fun p q => p.1 ≤ q.1)) = tableSum W l :=
  tableSum_perm W (List.mergeSort_perm l _)

/-- Sums of pointwise sums of maps split. -/
theorem sum_map_add {γ M : Type} [AddCommMonoid M] (l : List γ) (f g : γ → M) :
    (l.map (fun x => f x + g x)).sum = (l.map f).sum + (l.map g).sum := by
  induction l with
  | nil => simp
  | cons a rest ih => simp [ih]; abel

/-- Exchange of two finite sums written as maps. -/
theorem sum_map_comm {γ δ M : Type} [AddCommMonoid M] (l₁ : List γ) (l₂ : List δ)
    (f : γ → δ → M) :
    (l₁.map (fun a => (l₂.map (fun b => f a b)).sum)).sum
      = (l₂.map (fun b => (l₁.map (fun a => f a b)).sum)).sum := by
  induction l₁ with
  | nil => simp
  | cons a rest ih =>
    simp only [List.map_cons, List.sum_cons, ih, ← sum_map_add]

/-- Table sums distribute over flattening. -/
theorem tableSum_flatten {R : Type} [CommSemiring R] (W : ℚ → R) (L : List (List (ℚ × ℕ))) :
    tableSum W L.flatten = (L.map (tableSum W)).sum := by
  rw [tableSum, pairSum, List.map_flatten, List.sum_flatten, List.map_map]
  rfl

/-- One `foldStep` evaluates like a double sum: every running row against
every histogram row, with multiplied keys and multiplied counts. -/
theorem tableSum_foldStep {R : Type} [CommSemiring R] (W : ℚ → R) (df next_df : List (ℚ × ℕ)) :
    tableSum W (foldStep df next_df)
      = tableSum (fun dk => tableSum (fun qk => W (dk * qk)) next_df) df := by
  rw [foldStep, tableSum_aggregate, tableSum_flatten, List.map_map]
  have h1 : ∀ q : ℚ × ℕ,
      (tableSum W ∘ fun q => df.map (fun p => (p.1 * q.1, p.2 * q.2))) q
        = (df.map (fun p => (q.2 : R) * ((p.2 : R) * W (p.1 * q.1)))).sum := by
    intro q
    show tableSum W (df.map _) = _
    rw [tableSum, pairSum, List.map_map]
    refine congrArg List.sum (List.map_congr_left fun p _ => ?_)
    show ((p.2 * q.2 : ℕ) : R) * W (p.1 * q.1) = _
    push_cast
    ring
  rw [List.map_congr_left (fun q _ => h1 q),
      sum_map_comm next_df df (fun q p => (q.2 : R) * ((p.2 : R) * W (p.1 * q.1))),
      tableSum, pairSum]
  refine congrArg List.sum (List.map_congr_left fun p _ => ?_)
  have h2 : (next_df.map (fun q => (q.2 : R) * ((p.2 : R) * W (p.1 * q.1))))
      = next_df.map (fun q => (p.2 : R) * ((q.2 : R) * W (p.1 * q.1))) := by
    refine List.map_congr_left fun q _ => ?_
    ring
  rw [h2, List.sum_map_mul_left]
  rfl

/-- Evaluation of a left fold of histograms, as nested sums over the
histograms' rows with keys multiplied along the way. -/
def histsFun {R : Type} [CommSemiring R] (W : ℚ → R) : List (List (ℚ × ℕ)) → ℚ → R
  | [] => W
  | h :: hs => fun k => tableSum (fun qk => histsFun W hs (k * qk)) h

theorem tableSum_foldl {R : Type} [CommSemiring R] (W : ℚ → R) (hs : List (List (ℚ × ℕ))) :
    ∀ t : List (ℚ × ℕ), tableSum W (hs.foldl foldStep t) = tableSum (histsFun W hs) t := by
  induction hs with
  | nil => intro t; rfl
  | cons h hs ih =>
    intro t
    rw [List.foldl_cons, ih, tableSum_foldStep]
    rfl

/-- Evaluating a per-position histogram against a weight function sums that
function over the position's amino-acid weights. -/
theorem tableSum_degeneracyHistogram {R : Type} [CommSemiring R] (V : ℚ → R)
    (d : List (Char × ℚ)) :
    tableSum V (degeneracyHistogram d) = (d.map (fun kv => V kv.2)).sum := by
  rw [degeneracyHistogram, tableSum_aggregate, tableSum, pairSum, List.map_map]
  refine congrArg List.sum (List.map_congr_left fun kv _ => ?_)
  simp

/-- Nested evaluation over all choices of one entry per position, with the
running product of the chosen weights fed to the weight function at the
end. -/
def profChoiceSum {R : Type} [CommSemiring R] (W : ℚ → R) : ℚ → List (List (Char × ℚ)) → R
  | k, [] => W k
  | k, pos :: rest => (pos.map (fun kv => profChoiceSum W (k * kv.2) rest)).sum

theorem histsFun_profile {R : Type} [CommSemiring R] (W : ℚ → R) :
    ∀ (profile : List (List (Char × ℚ))) (k : ℚ),
      histsFun W (profile.map degeneracyHistogram) k = profChoiceSum W k profile := by
  intro profile
  induction profile with
  | nil => intro k; rfl
  | cons pos rest ih =>
    intro k
    show tableSum (fun qk => histsFun W (rest.map degeneracyHistogram)
      (k * qk)) (degeneracyHistogram pos) = _
    rw [tableSum_degeneracyHistogram]
    show _ = (pos.map (fun kv => profChoiceSum W (k * kv.2) rest)).sum
    exact congrArg List.sum (List.map_congr_left fun kv _ => ih (k * kv.2))

/-- Main evaluation lemma for the protein degeneracy table of a nonempty
profile: any table sum equals the nested per-position choice sum. -/
theorem tableSum_protein_degeneracy_table {R : Type} [CommSemiring R] (W : ℚ → R)
    (pos : List (Char × ℚ)) (rest : List (List (Char × ℚ))) :
    tableSum W (get_protein_degeneracy_table (pos :: rest))
      = profChoiceSum W 1 (pos :: rest) := by
  show tableSum W ((((rest.map degeneracyHistogram)).foldl foldStep
    (degeneracyHistogram pos)).mergeSort (fun p q => p.1 ≤ q.1)) = _
  rw [tableSum_mergeSort, tableSum_foldl, tableSum_degeneracyHistogram]
  show _ = (pos.map (fun kv => profChoiceSum W (1 * kv.2) rest)).sum
  refine congrArg List.sum (List.map_congr_left fun kv _ => ?_)
  rw [histsFun_profile W rest kv.2, one_mul]

/-- Choice sums of a multiplicative weight function factor into a product of
per-position sums. -/
theorem profChoiceSum_multiplicative {R : Type} [CommSemiring R] (g : ℚ → R)
    (hg : ∀ a b, g (a * b) = g a * g b) :
    ∀ (profile : List (List (Char × ℚ))) (k : ℚ),
      profChoiceSum g k profile
        = g k * (profile.map (fun pos => (pos.map (fun kv => g kv.2)).sum)).prod := by
  intro profile
  induction profile with
  | nil => intro k; simp [profChoiceSum]
  | cons pos rest ih =>
    intro k
    show (pos.map (fun kv => profChoiceSum g (k * kv.2) rest)).sum = _
    have hpt : (pos.map (fun kv => profChoiceSum g (k * kv.2) rest))
        = pos.map (fun kv => g k * (g kv.2
            * (rest.map (fun pos => (pos.map (fun kv => g kv.2)).sum)).prod)) := by
      refine List.map_congr_left fun kv _ => ?_
      rw [ih (k * kv.2), hg, mul_assoc]
    rw [hpt, List.sum_map_mul_left, List.sum_map_mul_right, List.map_cons, List.prod_cons]

/-! ### Counting lemmas for the protein degeneracy table -/

/-- The lookup total at key `d` is the `ℕ`-valued table sum against the
indicator of `d`. -/
theorem sumMatching_eq_tableSum (d : ℚ) (t : List (ℚ × ℕ)) :
    sumMatching d t = tableSum (R := ℕ) (fun k => if k = d then 1 else 0) t := by
  induction t with
  | nil => rfl
  | cons p rest ih =>
    show (if p.1 = d then p.2 else 0) + sumMatching d rest
      = pairSum (fun (k : ℚ) (c : ℕ) => (c : ℕ) * if k = d then 1 else 0) (p :: rest)
    rw [pairSum_cons]
    refine congrArg₂ (· + ·) ?_ ih
    by_cases h : p.1 = d <;> simp [h]

/-- In a dict with distinct keys, `find?` on the key of a present entry
returns that entry. -/
theorem find?_of_nodup_keys {pos : List (Char × ℚ)} (hnd : (pos.map Prod.fst).Nodup)
    {kv : Char × ℚ} (hm : kv ∈ pos) :
    pos.find? (fun q => q.1 = kv.1) = some kv := by
  induction pos with
  | nil => cases hm
  | cons q rest ih =>
    rw [List.map_cons, List.nodup_cons] at hnd
    rcases List.mem_cons.mp hm with h | h
    · subst h
      simp [List.find?_cons]
    · have hne : ¬ q.1 = kv.1 := by
        intro he
        exact hnd.1 (he ▸ List.mem_map_of_mem Prod.fst h)
      rw [List.find?_cons_of_neg _ (by simp [hne])]
      exact ih hnd.2 h

/-- The weight a nodup dict assigns to the key of one of its entries is that
entry's value. -/
theorem positionWeight_of_mem {pos : List (Char × ℚ)} (hnd : (pos.map Prod.fst).Nodup)
    {kv : Char × ℚ} (hm : kv ∈ pos) : positionWeight pos kv.1 = kv.2 := by
  rw [positionWeight, find?_of_nodup_keys hnd hm]
  rfl

/-- `countP` over a `flatMap` is the sum of the inner counts. -/
theorem countP_flatMap_sum {γ δ : Type} (l : List γ) (f : γ → List δ) (p : δ → Bool) :
    (l.flatMap f).countP p = (l.map (fun x => (f x).countP p)).sum := by
  induction l with
  | nil => rfl
  | cons a rest ih => simp [List.flatMap_cons, List.countP_append, ih]

/-- The protein lists of a design with nodup per-position dicts are
pairwise distinct. -/
theorem proteinStrings_nodup :
    ∀ profile : List (List (Char × ℚ)),
      (∀ pos ∈ profile, (pos.map Prod.fst).Nodup) → (proteinStrings profile).Nodup := by
  intro profile
  induction profile with
  | nil => intro _; simp [proteinStrings]
  | cons pos rest ih =>
    intro hnd
    rw [proteinStrings, List.nodup_flatMap]
    constructor
    · intro kv _
      exact (ih (fun q hq => hnd q (List.mem_cons_of_mem _ hq))).map
        (fun p q h => (List.cons.injEq _ _ _ _).mp h |>.2)
    · have hpw : pos.Pairwise (fun a b => a.1 ≠ b.1) :=
        List.pairwise_map.mp (hnd pos (List.mem_cons_self _ _))
      refine hpw.imp ?_
      intro a b hab
      intro x hxa hxb
      obtain ⟨p, _, rfl⟩ := List.mem_map.mp hxa
      obtain ⟨q, _, he⟩ := List.mem_map.mp hxb
      exact hab (((List.cons.injEq _ _ _ _).mp he).1.symm)

theorem profChoiceSum_countP (d : ℚ) :
    ∀ (profile : List (List (Char × ℚ))) (k : ℚ),
      (∀ pos ∈ profile, (pos.map Prod.fst).Nodup) →
      profChoiceSum (R := ℕ) (fun x => if x = d then 1 else 0) k profile
        = (proteinStrings profile).countP
            (fun p => k * (List.zipWith positionWeight profile p).prod = d) := by
  intro profile
  induction profile with
  | nil =>
    intro k _
    show (if k = d then 1 else 0) = _
    simp [proteinStrings, List.countP_cons, mul_one]
  | cons pos rest ih =>
    intro k hnd
    have hpos : (pos.map Prod.fst).Nodup := hnd pos (List.mem_cons_self _ _)
    have hrest : ∀ q ∈ rest, (q.map Prod.fst).Nodup :=
      fun q hq => hnd q (List.mem_cons_of_mem _ hq)
    show (pos.map (fun kv =>
      profChoiceSum (fun x => if x = d then 1 else 0) (k * kv.2) rest)).sum = _
    rw [proteinStrings, countP_flatMap_sum]
    refine congrArg List.sum (List.map_congr_left fun kv hkv => ?_)
    rw [ih (k * kv.2) hrest]
    show _ = ((proteinStrings rest).map (fun p => kv.1 :: p)).countP _
    rw [List.countP_map]
    refine List.countP_congr fun p _ => ?_
    show (decide (k * kv.2 * (List.zipWith positionWeight rest p).prod = d) = true)
      ↔ (decide (k * (List.zipWith positionWeight (pos :: rest) (kv.1 :: p)).prod = d) = true)
    rw [decide_eq_true_eq, decide_eq_true_eq, List.zipWith_cons_cons, List.prod_cons,
        positionWeight_of_mem hpos hkv, ← mul_assoc]

/-! ### Algebra helpers for the diversity cross-check -/

theorem tableSum_W_mul_const {R : Type} [CommSemiring R] (W : ℚ → R) (c : R)
    (t : List (ℚ × ℕ)) :
    tableSum (fun k => W k * c) t = tableSum W t * c := by
  rw [tableSum, tableSum, pairSum, pairSum, ← List.sum_map_mul_right]
  exact congrArg List.sum (List.map_congr_left fun p _ => by ring)

theorem prod_map_div {γ : Type} (l : List γ) (f g : γ → ℚ) :
    (l.map (fun x => f x / g x)).prod = (l.map f).prod / (l.map g).prod := by
  induction l with
  | nil => simp
  | cons a r ih => simp [ih, div_mul_div_comm]

theorem prod_map_sq {γ : Type} (l : List γ) (f : γ → ℚ) :
    (l.map (fun x => f x ^ 2)).prod = (l.map f).prod ^ 2 := by
  induction l with
  | nil => simp
  | cons a r ih => simp [ih, mul_pow]

/-! ### Small helper lemmas for the claims -/

/-- Rational values that are nonnegative and sum to zero are all zero. -/
theorem list_sum_nonneg_all_zero {l : List ℚ} (h0 : ∀ x ∈ l, 0 ≤ x) (hs : l.sum = 0) :
    ∀ x ∈ l, x = 0 := by
  induction l with
  | nil => simp
  | cons a r ih =>
    rw [List.sum_cons] at hs
    have har : 0 ≤ r.sum := List.sum_nonneg (fun x hx => h0 x (List.mem_cons_of_mem _ hx))
    have ha : 0 ≤ a := h0 a (List.mem_cons_self _ _)
    intro x hx
    rcases List.mem_cons.mp hx with rfl | hx
    · linarith
    · exact ih (fun y hy => h0 y (List.mem_cons_of_mem _ hy)) (by linarith) x hx

/-! ### The claims -/

/-- C1: for every design on which degeneracy assessment runs (a nonempty
amino-acid profile whose per-position dicts have distinct keys, as dicts do),
the protein degeneracy table — the left-to-right fold of the per-position
degeneracy histograms by pairwise key products and count products, regrouped
by combined key — maps each degeneracy value to the number of distinct
protein sequences of the design having exactly that degeneracy. -/
theorem protein_degeneracy_table_counts_proteins (profile : List (List (Char × ℚ)))
    (hne : profile ≠ [])
    (hnd : ∀ pos ∈ profile, (pos.map Prod.fst).Nodup) :
    (proteinStrings profile).Nodup ∧
    ∀ d : ℚ, sumMatching d (get_protein_degeneracy_table profile)
      = (proteinStrings profile).countP (fun p => proteinDegeneracy profile p = d) := by
  obtain ⟨pos, rest, rfl⟩ : ∃ pos rest, profile = pos :: rest := by
    match profile, hne with
    | p :: r, _ => exact ⟨p, r, rfl⟩
  refine ⟨proteinStrings_nodup _ hnd, fun d => ?_⟩
  rw [sumMatching_eq_tableSum d, tableSum_protein_degeneracy_table,
      profChoiceSum_countP d _ 1 hnd]
  refine List.countP_congr fun p _ => ?_
  rw [decide_eq_true_eq, decide_eq_true_eq, one_mul, proteinDegeneracy]

/-- Witness for C1: the hypotheses hold for the concrete two-position profile
with weights A:2, C:1 at the first position and K:1 at the second, and there
the table assigns degeneracy 2 the count of proteins with degeneracy 2. -/
theorem protein_degeneracy_table_counts_proteins_witness :
    (([[('A', (2 : ℚ)), ('C', 1)], [('K', 1)]] : List (List (Char × ℚ))) ≠ []
      ∧ ∀ pos ∈ ([[('A', (2 : ℚ)), ('C', 1)], [('K', 1)]] : List (List (Char × ℚ))),
          (pos.map Prod.fst).Nodup)
    ∧ sumMatching 2 (get_protein_degeneracy_table [[('A', 2), ('C', 1)], [('K', 1)]])
        = (proteinStrings [[('A', 2), ('C', 1)], [('K', 1)]]).countP
            (fun p => proteinDegeneracy [[('A', 2), ('C', 1)], [('K', 1)]] p = 2) :=
  ⟨⟨by simp, by decide⟩,
   (protein_degeneracy_table_counts_proteins [[('A', 2), ('C', 1)], [('K', 1)]]
     (by simp) (by decide)).2 2⟩

/-- C2: the two Makowski-Soares diversity computations agree — the table
formulation over the protein degeneracy table equals the per-position
product-of-squared-normalized-weights formulation, exactly (so in particular
to numerical precision). -/
theorem makowski_diversity_formulations_agree (profile : List (List (Char × ℚ))) :
    get_makowski_diversity profile = get_alternative_makowski_diversity profile := by
  cases profile with
  | nil =>
    show (1 : ℚ) / _ = 1 / _
    norm_num [get_makowski_diversity, get_alternative_makowski_diversity,
      get_protein_degeneracy_table, Oligonucleotide.aminoAcidDegeneracyProfile,
      size_proteins, size_oligonucleotides]
  | cons pos rest =>
    show (1 : ℚ) / (size_proteins (get_protein_degeneracy_table (pos :: rest))
        * ((get_protein_degeneracy_table (pos :: rest)).map (fun p => (p.2 : ℚ)
            * (p.1 / size_oligonucleotides (get_protein_degeneracy_table (pos :: rest))) ^ 2)).sum)
      = 1 / (size_proteins (get_protein_degeneracy_table (pos :: rest))
        * ((pos :: rest).map (fun aa_dict =>
            (aa_dict.map (fun kv => (kv.2 / (aa_dict.map Prod.snd).sum) ^ 2)).sum)).prod)
    have hS : size_oligonucleotides (get_protein_degeneracy_table (pos :: rest))
        = ((pos :: rest).map (fun q => (q.map (fun kv => kv.2)).sum)).prod := by
      have h1 : size_oligonucleotides (get_protein_degeneracy_table (pos :: rest))
          = tableSum (fun k => k) (get_protein_degeneracy_table (pos :: rest)) := by
        rw [size_oligonucleotides, tableSum, pairSum]
        exact congrArg List.sum (List.map_congr_left fun p _ => mul_comm _ _)
      rw [h1, tableSum_protein_degeneracy_table,
          profChoiceSum_multiplicative (fun k => k) (fun a b => rfl), one_mul]
    have hSq : ((get_protein_degeneracy_table (pos :: rest)).map (fun p => (p.2 : ℚ)
          * (p.1 / size_oligonucleotides (get_protein_degeneracy_table (pos :: rest))) ^ 2)).sum
        = ((pos :: rest).map (fun q => (q.map (fun kv => kv.2 ^ 2)).sum)).prod
          * (1 / size_oligonucleotides (get_protein_degeneracy_table (pos :: rest)) ^ 2) := by
      have h2 : ((get_protein_degeneracy_table (pos :: rest)).map (fun p => (p.2 : ℚ)
            * (p.1 / size_oligonucleotides (get_protein_degeneracy_table (pos :: rest))) ^ 2)).sum
          = tableSum (fun k => k ^ 2
              * (1 / size_oligonucleotides (get_protein_degeneracy_table (pos :: rest)) ^ 2))
              (get_protein_degeneracy_table (pos :: rest)) := by
        rw [tableSum, pairSum]
        refine congrArg List.sum (List.map_congr_left fun p _ => ?_)
        rw [div_pow]
        ring
      rw [h2, tableSum_W_mul_const, tableSum_protein_degeneracy_table,
          profChoiceSum_multiplicative (fun k => k ^ 2) (fun a b => mul_pow a b 2), one_pow,
          one_mul]
    rw [hSq, hS]
    have hRhs : ((pos :: rest).map (fun aa_dict =>
          (aa_dict.map (fun kv => (kv.2 / (aa_dict.map Prod.snd).sum) ^ 2)).sum)).prod
        = ((pos :: rest).map (fun q => (q.map (fun kv => kv.2 ^ 2)).sum)).prod
          / ((pos :: rest).map (fun q => (q.map (fun kv => kv.2)).sum)).prod ^ 2 := by
      have h3 : ((pos :: rest).map (fun aa_dict =>
            (aa_dict.map (fun kv => (kv.2 / (aa_dict.map Prod.snd).sum) ^ 2)).sum))
          = ((pos :: rest).map (fun q =>
            (q.map (fun kv => kv.2 ^ 2)).sum / (q.map (fun kv => kv.2)).sum ^ 2)) := by
        refine List.map_congr_left fun q _ => ?_
        have h4 : (q.map (fun kv => (kv.2 / (q.map Prod.snd).sum) ^ 2))
            = q.map (fun kv => kv.2 ^ 2 * (1 / (q.map Prod.snd).sum ^ 2)) := by
          refine List.map_congr_left fun kv _ => ?_
          rw [div_pow]
          ring
        rw [h4, List.sum_map_mul_right, mul_one_div]
      rw [h3, prod_map_div (pos :: rest) _ (fun q => (q.map (fun kv => kv.2)).sum ^ 2),
          prod_map_sq]
    rw [hRhs, mul_one_div]

/-- C3 (code bug): `get_entropy` ends at a leftover debug `return 0`, so for
the NNK design under the standard code it returns 0, while the Shannon
entropy the claim (and the dead code after the early return) specifies is
strictly positive on the same table. -/
theorem get_entropy_returns_zero_despite_positive_entropy :
    (Oligonucleotide.aminoAcidProfileOfString DEFAULT_GENETIC_CODE "NNK").map
      get_protein_degeneracy_table = .ok [(1, 13), (2, 5), (3, 3)]
    ∧ get_entropy [(1, 13), (2, 5), (3, 3)] = 0
    ∧ 0 < shannon_entropy_of_table [(1, 13), (2, 5), (3, 3)] := by
  refine ⟨by with_unfolding_all rfl, rfl, ?_⟩
  have hP : size_proteins [((1 : ℚ), (13 : ℕ)), (2, 5), (3, 3)] = 21 := by
    norm_num [size_proteins]
  simp only [shannon_entropy_of_table, hP, List.map_cons, List.map_nil, List.sum_cons,
    List.sum_nil]
  have h1 : Real.log ((1 : ℝ) / 21) < 0 := Real.log_neg (by norm_num) (by norm_num)
  have h2 : Real.log ((2 : ℝ) / 21) < 0 := Real.log_neg (by norm_num) (by norm_num)
  have h3 : Real.log ((3 : ℝ) / 21) < 0 := Real.log_neg (by norm_num) (by norm_num)
  push_cast
  norm_num
  nlinarith [h1, h2, h3]

/-- C4 (code bug): `reverse_complement` is an unimplemented `TODO` stub that
returns `None` for every input (so the round trip asserted by the spec and by
`test_reverse_complement` fails with an `AttributeError`), while the
spec-modelled operation does reverse, complement, and round-trip on the
concrete non-degenerate test string. -/
theorem reverse_complement_is_stub :
    reverse_complement "ACCGGGTTTT" = none
    ∧ spec_reverse_complement "ACCGGGTTTT" = "AAAACCCGGT"
    ∧ spec_reverse_complement (spec_reverse_complement "ACCGGGTTTT") = "ACCGGGTTTT" :=
  ⟨rfl, by with_unfolding_all rfl, by with_unfolding_all rfl⟩

/-- C5 counterexample: under the standard genetic code (NCBI id 1, the
default), `Codon("NNK").translate()` has 13 amino acids of weight 1 (the stop
symbol among them), not 11 as the claim states. -/
theorem nnk_translate_standard_code_not_eleven :
    (Codon.ofString "NNK").map (fun c =>
      (Codon.translate DEFAULT_GENETIC_CODE c).countP (fun kv => kv.2 = 1)) = .ok 13
    ∧ ¬ ((Codon.ofString "NNK").map (fun c =>
      (Codon.translate DEFAULT_GENETIC_CODE c).countP (fun kv => kv.2 = 1)) = .ok 11) := by
  have h : (Codon.ofString "NNK").map (fun c =>
      (Codon.translate DEFAULT_GENETIC_CODE c).countP (fun kv => kv.2 = 1)) = .ok 13 := by
    with_unfolding_all rfl
  refine ⟨h, fun hc => ?_⟩
  rw [h] at hc
  simp at hc

/-- C5 amended: under the supE code (`GeneticCode(1, {"TAG": "Q"})`, the code
used in the example the numbers come from), `Codon("NNK").translate()` has
exactly 11 amino acids of weight 1, 6 of weight 2 and 3 of weight 3, with the
weights summing to 32. -/
theorem nnk_translate_supE_histogram :
    (Codon.ofString "NNK").map (fun c =>
      ((Codon.translate SUPE c).countP (fun kv => kv.2 = 1),
       (Codon.translate SUPE c).countP (fun kv => kv.2 = 2),
       (Codon.translate SUPE c).countP (fun kv => kv.2 = 3),
       ((Codon.translate SUPE c).map Prod.snd).sum))
    = .ok (11, 6, 3, 32) := by
  with_unfolding_all rfl

/-- C6 (code bug): under the standard code, `calculate_protein_degeneracy`
returns 4 for the protein A against NNN and 2 against NNK as claimed, but
against AAA (where A is unreachable) it raises `KeyError` (`none` here)
instead of returning 0. -/
theorem calculate_protein_degeneracy_examples :
    (Oligonucleotide.aminoAcidProfileOfString DEFAULT_GENETIC_CODE "NNN").map
      (calculate_protein_degeneracy "A") = .ok (some 4)
    ∧ (Oligonucleotide.aminoAcidProfileOfString DEFAULT_GENETIC_CODE "NNK").map
      (calculate_protein_degeneracy "A") = .ok (some 2)
    ∧ (Oligonucleotide.aminoAcidProfileOfString DEFAULT_GENETIC_CODE "AAA").map
      (calculate_protein_degeneracy "A") = .ok none :=
  ⟨by with_unfolding_all rfl, by with_unfolding_all rfl, by with_unfolding_all rfl⟩

/-- C7: constructing a Nucleotide fails on a base-letter weight mapping of
nonnegative weights with zero total (the `ValueError` raised by `min` of an
empty sequence in `nucleotide_composition_to_letter`), and on any single
letter that is not a recognized standard or IUPAC degenerate code (the
`KeyError` of the composition-table lookup). -/
theorem nucleotide_construction_fails_on_invalid_input :
    (∀ composition : List (Char × ℚ),
      is_valid_nucleotide_string (composition.map Prod.fst) = true →
      (∀ kv ∈ composition, 0 ≤ kv.2) →
      (composition.map Prod.snd).sum = 0 →
      Nucleotide.ofData (.dict composition)
        = .error "ValueError: min() arg is an empty sequence")
    ∧ (∀ c : Char, normalizeChar c ∉ DEGENERATE_NUCLEOTIDES →
      Nucleotide.ofData (.letter c) = .error "KeyError") := by
  constructor
  · intro comp hval hnn hz
    have hall : ∀ kv ∈ comp, kv.2 = 0 := by
      intro kv hkv
      exact list_sum_nonneg_all_zero
        (fun x hx => by
          obtain ⟨q, hq, rfl⟩ := List.mem_map.mp hx
          exact hnn q hq)
        hz kv.2 (List.mem_map_of_mem Prod.snd hkv)
    have hfil : comp.filter (fun kv => 0 < kv.2) = [] := by
      rw [List.filter_eq_nil_iff]
      intro kv hkv
      simp [hall kv hkv]
    have hletter : nucleotide_composition_to_letter comp
        = .error "ValueError: min() arg is an empty sequence" := by
      simp [nucleotide_composition_to_letter, hfil]
    have hpi : Nucleotide.processInput (.dict comp)
        = .error "ValueError: min() arg is an empty sequence" := by
      simp [Nucleotide.processInput, hval, hletter]
    rw [show Nucleotide.ofData (.dict comp)
        = (Nucleotide.processInput (.dict comp) >>= fun x => _) from rfl, hpi]
    rfl
  · intro c hc
    have hfind : DEGENERATE_NUCLEOTIDE_CODE_COMPOSITION.find?
        (fun p => p.1 = normalizeChar c) = none := by
      rw [List.find?_eq_none]
      intro x hx
      simp only [decide_eq_true_eq]
      intro he
      refine hc ?_
      rw [DEGENERATE_NUCLEOTIDES, List.mem_mergeSort, ← he]
      obtain ⟨q, hq, rfl⟩ := List.mem_map.mp hx
      exact List.mem_map_of_mem Prod.fst hq
    have hpi : Nucleotide.processInput (.letter c) = .error "KeyError" := by
      simp [Nucleotide.processInput, hfind]
    rw [show Nucleotide.ofData (.letter c)
        = (Nucleotide.processInput (.letter c) >>= fun x => _) from rfl, hpi]
    rfl

/-- Witness for C7: the mapping A:0 has valid keys, nonnegative weights and
zero total and is rejected, and the unrecognized letter Z is rejected. -/
theorem nucleotide_construction_fails_witness :
    (is_valid_nucleotide_string ([(('A' : Char), (0 : ℚ))].map Prod.fst) = true
      ∧ (∀ kv ∈ [(('A' : Char), (0 : ℚ))], 0 ≤ kv.2)
      ∧ ([(('A' : Char), (0 : ℚ))].map Prod.snd).sum = 0
      ∧ normalizeChar 'Z' ∉ DEGENERATE_NUCLEOTIDES)
    ∧ Nucleotide.ofData (.dict [('A', 0)])
        = .error "ValueError: min() arg is an empty sequence"
    ∧ Nucleotide.ofData (.letter 'Z') = .error "KeyError" :=
  ⟨⟨by with_unfolding_all rfl,
    by
      intro kv h
      rw [List.mem_singleton] at h
      subst h
      norm_num,
    by norm_num,
    of_decide_eq_true (by with_unfolding_all rfl)⟩,
   nucleotide_construction_fails_on_invalid_input.1 [('A', 0)]
     (by with_unfolding_all rfl)
     (by
       intro kv h
       rw [List.mem_singleton] at h
       subst h
       norm_num)
     (by norm_num),
   nucleotide_construction_fails_on_invalid_input.2 'Z'
     (of_decide_eq_true (by with_unfolding_all rfl))⟩

/-- C8: combining the pure nucleotides C and T with equal proportions yields
composition A:0, C:1/2, G:0, T:1/2, uppercase label Y, degenerate and
equimolar; with proportions 1 and 3 it yields A:0, C:1/4, G:0, T:3/4,
lowercase label y, degenerate and not equimolar. -/
theorem combine_nucleotides_C_T_examples :
    (do
      let c ← Nucleotide.ofData (.letter 'C')
      let t ← Nucleotide.ofData (.letter 'T')
      combine_nucleotides [c, t] none : Except String Nucleotide)
      = .ok ⟨'Y', [('A', 0), ('C', 1/2), ('G', 0), ('T', 1/2)],
             ['C', 'T'], [1/2, 1/2], true, true⟩
    ∧ (do
      let c ← Nucleotide.ofData (.letter 'C')
      let t ← Nucleotide.ofData (.letter 'T')
      combine_nucleotides [c, t] (some [1, 3]) : Except String Nucleotide)
      = .ok ⟨'y', [('A', 0), ('C', 1/4), ('G', 0), ('T', 3/4)],
             ['C', 'T'], [1/4, 3/4], true, false⟩ :=
  ⟨by with_unfolding_all rfl, by with_unfolding_all rfl⟩

/-- C9 (code bug): `AminoAcid.is_degenerate` tests `len(members) > 0` instead
of `> 1`, so the pure amino acid A — with exactly one member — is reported
degenerate, and a Protein consisting of that single residue is degenerate
too, contradicting the claim and the docstring of the method itself. -/
theorem amino_acid_pure_A_reported_degenerate :
    (AminoAcid.ofLetter 'A').members = ['A']
    ∧ AminoAcid.is_degenerate (AminoAcid.ofLetter 'A') = true
    ∧ Protein.is_degenerate [AminoAcid.ofLetter 'A'] = true :=
  ⟨rfl, rfl, rfl⟩

/-- C10: `Codon.translate` preserves total weight: for every genetic code and
every codon whose members and proportions align (as all constructors
guarantee), the translated amino-acid weights sum to the sum of the codon
member proportions. -/
theorem codon_translate_preserves_total_weight (gc : GeneticCode) (c : Codon)
    (h : c.members.length = c.proportions.length) :
    ((Codon.translate gc c).map Prod.snd).sum = c.proportions.sum := by
  rw [Codon.translate]
  have h1 : ∀ l : List (Char × ℚ), (l.map Prod.snd).sum = pairSum (fun _ v => v) l :=
    fun l => rfl
  rw [h1, pairSum_aggregate (fun _ v => v) (fun k a b => rfl) (fun k => rfl)]
  show (((c.members.zip c.proportions).map
    (fun mp => (gc.getItem mp.1, mp.2))).map Prod.snd).sum = _
  rw [List.map_map]
  show ((c.members.zip c.proportions).map Prod.snd).sum = _
  rw [List.map_snd_zip _ _ (le_of_eq h.symm)]

/-- Witness for C10: the single-member codon AAA with proportion 1 satisfies
the alignment hypothesis and its translation total equals 1. -/
theorem codon_translate_preserves_total_weight_witness :
    ((["AAA"] : List String).length = ([(1 : ℚ)]).length)
    ∧ ((Codon.translate DEFAULT_GENETIC_CODE
        ⟨"AAA", ["AAA"], [1], [("AAA", 1)]⟩).map Prod.snd).sum = ([(1 : ℚ)]).sum :=
  ⟨rfl, codon_translate_preserves_total_weight DEFAULT_GENETIC_CODE
    ⟨"AAA", ["AAA"], [1], [("AAA", 1)]⟩ rfl⟩

end Dogma
